import Mathlib

/-!
Shallow embedding of the `retry` Go package: a configurable retry executor.

The embedding models:
  * `Config` — the retry policy (`MaxAttempts`, optional `RetryOn` predicate,
    fixed `Delay` in nanoseconds, optional private `delayFn`), over an abstract
    error type `E` (Go's `error` interface).
  * `Ctx` — the cancellation signal (Go `context.Context`): an oracle
    `interruptedAt i` deciding whether the inter-attempt wait at loop index `i`
    observes cancellation (resolving the `select` race deterministically), and
    the value `err` returned by `Context.Err()`.
  * The operation `fn` — Go closures may carry state across calls, so the k-th
    invocation's outcome is modelled as a predetermined sequence `fn : Nat → E`
    (or `Nat → T × E` for the value form).
  * `Func` / `FuncVal` — the executors, instrumented to also return the trace of
    observable events (operation invocations, delay-function calls, waits,
    cancellation interrupts) so that counting claims can be stated.
-/

namespace Retry

/-- Observable events of one executor run, in order of occurrence.
`delayCalled a r` records a call of the configured delay function with argument
`a` returning (after the `max(0, ·)` clamp) `r`; `waited d` a blocking wait of
duration `d` that the timer won; `interrupted` a wait (blocking or the
non-blocking check) won by the cancellation signal; `checked` a non-blocking
cancellation check that passed; `invoked k e` the k-th (0-based) invocation of
the operation, yielding error `e`. -/
inductive Event (E : Type) where
  | delayCalled (arg res : Int)
  | waited (d : Int)
  | interrupted
  | checked
  | invoked (idx : Nat) (e : E)
deriving DecidableEq

/-- The cancellation signal (Go `context.Context`), restricted to what the
executor observes: whether the wait at loop index `i` is resolved in favor of
`ctx.Done()`, and the error reported by `Context.Err()`. -/
structure Ctx (E : Type) where
  interruptedAt : Nat → Bool
  err : E

/-- Go `type Config struct` from `pkg.go`: `MaxAttempts int`,
`RetryOn func(error) bool` (nil-able, hence `Option`), `Delay time.Duration`
(int64 nanoseconds), and the private `delayFn func(int) time.Duration`. -/
structure Config (E : Type) where
  MaxAttempts : Int
  RetryOn : Option (E → Bool)
  Delay : Int
  delayFn : Option (Int → Int)

/-- Go `func (c *Config) WithDelayFunc(fn func(int) time.Duration) Config`:
`cfg := *c; cfg.delayFn = fn; return cfg`. -/
def Config.WithDelayFunc (c : Config E) (fn : Int → Int) : Config E :=
  { c with delayFn := some fn }

/-- The body of the `if i != 0 { ... }` block of the retry loop: the
inter-attempt wait before loop iteration `i`. Returns the events it emits and
whether the loop must abort (`err = ctx.Err(); break retryLoop`).
Mirrors `pkg.go` lines 50-70: if `cfg.Delay > 0 || cfg.delayFn != nil`, a timer
for `cfg.Delay` — or, when `delayFn` is set, `max(0, cfg.delayFn(i))` — races
`ctx.Done()`; otherwise a non-blocking `select` checks `ctx.Done()`. -/
def waitStep (ctx : Ctx E) (cfg : Config E) (i : Nat) : List (Event E) × Bool :=
  if 0 < cfg.Delay ∨ cfg.delayFn.isSome then
    match cfg.delayFn with
    | some f =>
        let d := max 0 (f (Int.ofNat i))
        if ctx.interruptedAt i then ([.delayCalled (Int.ofNat i) d, .interrupted], true)
        else ([.delayCalled (Int.ofNat i) d, .waited d], false)
    | none =>
        if ctx.interruptedAt i then ([.interrupted], true)
        else ([.waited cfg.Delay], false)
  else
    if ctx.interruptedAt i then ([.interrupted], true)
    else ([.checked], false)

/-- Iterations `i, i+1, ...` of the `retryLoop` of `Func` (`pkg.go` lines
48-77), for iterations after the first (every one waits first); `fuel` is the
number of loop indices left before `cfg.MaxAttempts` is reached. Returns the
emitted events and `some err` for the loop's final error, or `none` when no
iteration ran (then the caller's current error stands, per `r.getD`). -/
def loopFrom (ctx : Ctx E) (cfg : Config E) (p : E → Bool) (fn : Nat → E) :
    Nat → Nat → List (Event E) × Option E
  | _, 0 => ([], none)
  | i, fuel + 1 =>
      let w := waitStep ctx cfg i
      if w.2 then (w.1, some ctx.err)
      else
        let e := fn i
        if p e then
          let r := loopFrom ctx cfg p fn (i + 1) fuel
          (w.1 ++ Event.invoked i e :: r.1, some (r.2.getD e))
        else (w.1 ++ [Event.invoked i e], some e)

/-- Go `func Func(ctx context.Context, cfg Config, fn func() error) error`
(`pkg.go` lines 42-79), instrumented with the event trace. The fast path
(`cfg.RetryOn == nil || cfg.MaxAttempts < 1`) returns `fn()` directly. In the
main loop, iteration 0 skips the wait (`i != 0` guard), so it is unfolded here
and `loopFrom` runs iterations `1 .. MaxAttempts-1`. -/
def Func (ctx : Ctx E) (cfg : Config E) (fn : Nat → E) : List (Event E) × E :=
  match cfg.RetryOn with
  | none => ([.invoked 0 (fn 0)], fn 0)
  | some p =>
      if cfg.MaxAttempts < 1 then ([.invoked 0 (fn 0)], fn 0)
      else
        let e0 := fn 0
        if p e0 then
          let r := loopFrom ctx cfg p fn 1 (cfg.MaxAttempts.toNat - 1)
          (Event.invoked 0 e0 :: r.1, r.2.getD e0)
        else ([.invoked 0 e0], e0)

/-- Index of the last `invoked` event of a trace, if any. -/
def lastInvokedIdx (tr : List (Event E)) : Option Nat :=
  tr.reverse.findSome? fun ev =>
    match ev with
    | .invoked k _ => some k
    | _ => none

/-- Value held by the `val` variable of the wrapper closure of `FuncVal`
(`pkg.go` lines 88-93) after the events `tr`: the value produced by the last
invocation recorded in `tr`, or the starting value `cur` (`var val T`'s zero
value, resp. the value before `tr`) when `tr` records no invocation. -/
def valAt (fnv : Nat → T × E) (cur : T) (tr : List (Event E)) : T :=
  match lastInvokedIdx tr with
  | none => cur
  | some k => (fnv k).1

/-- Go generic `func FuncVal[T any](ctx, cfg, fn) (T, error)` from `pkg.go`
lines 87-96: wraps `fn` in a closure `wrap` that stores the value into `val`
and hands only the error to `Func`. `dflt` is the zero value of `T`
(`var val T`). The k-th call of `wrap` returns `(fnv k).2` and leaves `val`
holding the last invocation's value, i.e. `valAt fnv dflt` of the trace. -/
def FuncVal (ctx : Ctx E) (cfg : Config E) (fnv : Nat → T × E) (dflt : T) :
    List (Event E) × T × E :=
  let r := Func ctx cfg (fun k => (fnv k).2)
  (r.1, valAt fnv dflt r.1, r.2)

/-- Iterations `i, i+1, ...` of the `retryLoop` of the standalone `FuncVal`
(`part_001` lines 87-116), carrying the current `val` (`cur`), for iterations
after the first. `none` again means "no iteration ran". -/
def loopFromVal (ctx : Ctx E) (cfg : Config E) (p : E → Bool) (fnv : Nat → T × E) :
    T → Nat → Nat → List (Event E) × Option (T × E)
  | _, _, 0 => ([], none)
  | cur, i, fuel + 1 =>
      let w := waitStep ctx cfg i
      if w.2 then (w.1, some (cur, ctx.err))
      else
        let v := fnv i
        if p v.2 then
          let r := loopFromVal ctx cfg p fnv v.1 (i + 1) fuel
          (w.1 ++ Event.invoked i v.2 :: r.1, some (r.2.getD v))
        else (w.1 ++ [Event.invoked i v.2], some v)

/-- Go standalone `func FuncVal[T any](ctx, cfg, fn) (T, error)` from
`part_001` lines 80-118: the retry loop inlined, with `val, err = fn()`. -/
def FuncValStandalone (ctx : Ctx E) (cfg : Config E) (fnv : Nat → T × E) :
    List (Event E) × T × E :=
  match cfg.RetryOn with
  | none => ([.invoked 0 (fnv 0).2], fnv 0)
  | some p =>
      if cfg.MaxAttempts < 1 then ([.invoked 0 (fnv 0).2], fnv 0)
      else
        let v0 := fnv 0
        if p v0.2 then
          let r := loopFromVal ctx cfg p fnv v0.1 1 (cfg.MaxAttempts.toNat - 1)
          (Event.invoked 0 v0.2 :: r.1, r.2.getD v0)
        else ([.invoked 0 v0.2], v0)

/-- Number of operation invocations recorded in a trace. -/
def countInvoked (tr : List (Event E)) : Nat :=
  tr.countP fun ev =>
    match ev with
    | .invoked _ _ => true
    | _ => false

/-- Arguments passed to the delay function, in call order. -/
def delayArgs (tr : List (Event E)) : List Int :=
  tr.filterMap fun ev =>
    match ev with
    | .delayCalled a _ => some a
    | _ => none

/-! Basic facts about the wait step and the trace accessors. -/

theorem waitStep_snd (ctx : Ctx E) (cfg : Config E) (i : Nat) :
    (waitStep ctx cfg i).2 = ctx.interruptedAt i := by
  unfold waitStep
  rcases h : cfg.delayFn with _ | f <;>
    by_cases hi : ctx.interruptedAt i <;>
      simp [h, hi] <;> split <;> simp

theorem countInvoked_nil : countInvoked ([] : List (Event E)) = 0 := rfl

theorem countInvoked_append (xs ys : List (Event E)) :
    countInvoked (xs ++ ys) = countInvoked xs + countInvoked ys :=
  List.countP_append _ _ _

theorem countInvoked_waitStep (ctx : Ctx E) (cfg : Config E) (i : Nat) :
    countInvoked (waitStep ctx cfg i).1 = 0 := by
  unfold waitStep countInvoked
  rcases h : cfg.delayFn with _ | f <;>
    by_cases hi : ctx.interruptedAt i <;>
      simp [h, hi] <;> split <;> simp

theorem interrupted_mem_waitStep (ctx : Ctx E) (cfg : Config E) (i : Nat) :
    Event.interrupted ∈ (waitStep ctx cfg i).1 ↔ ctx.interruptedAt i = true := by
  unfold waitStep
  rcases h : cfg.delayFn with _ | f <;>
    by_cases hi : ctx.interruptedAt i <;>
      simp [h, hi] <;> split <;> simp

theorem waitStep_getLast_interrupted (ctx : Ctx E) (cfg : Config E) (i : Nat)
    (hi : ctx.interruptedAt i = true) :
    (waitStep ctx cfg i).1.getLast? = some Event.interrupted := by
  unfold waitStep
  rcases h : cfg.delayFn with _ | f <;> simp [h, hi] <;> split <;> simp

theorem lastInvokedIdx_waitStep (ctx : Ctx E) (cfg : Config E) (i : Nat) :
    lastInvokedIdx (waitStep ctx cfg i).1 = none := by
  unfold waitStep lastInvokedIdx
  rcases h : cfg.delayFn with _ | f <;>
    by_cases hi : ctx.interruptedAt i <;>
      simp [h, hi] <;> split <;> simp

theorem countInvoked_cons_invoked (k : Nat) (e : E) (tr : List (Event E)) :
    countInvoked (Event.invoked k e :: tr) = countInvoked tr + 1 := by
  simp [countInvoked, List.countP_cons]

/-- A run of the retry loop in which the predicate always says retry and the
cancellation signal never fires performs every remaining iteration and ends
with the last invocation's error. -/
theorem loopFrom_all_retry (ctx : Ctx E) (cfg : Config E) (p : E → Bool) (fn : Nat → E)
    (hp : ∀ k, p (fn k) = true) (hc : ∀ i, ctx.interruptedAt i = false) :
    ∀ fuel i, 1 ≤ fuel →
      countInvoked (loopFrom ctx cfg p fn i fuel).1 = fuel ∧
      (loopFrom ctx cfg p fn i fuel).2 = some (fn (i + fuel - 1)) := by
  intro fuel
  induction fuel with
  | zero => intro i h; omega
  | succ f ih =>
      intro i _
      have hw : (waitStep ctx cfg i).2 = false := by rw [waitStep_snd]; exact hc i
      simp only [loopFrom, hw, Bool.false_eq_true, if_false, hp i, if_true]
      rcases Nat.eq_zero_or_pos f with hf | hf
      · subst hf
        simp [loopFrom, countInvoked_append, countInvoked_waitStep,
          countInvoked_cons_invoked, countInvoked_nil]
      · obtain ⟨h1, h2⟩ := ih (i + 1) hf
        refine ⟨?_, ?_⟩
        · rw [countInvoked_append, countInvoked_waitStep, countInvoked_cons_invoked, h1]
          omega
        · rw [h2]
          simp only [Option.getD_some]
          have hidx : i + 1 + f - 1 = i + (f + 1) - 1 := by omega
          rw [hidx]

/-- If a run of the retry loop records a cancellation interrupt, the loop's
error is the signal's `Context.Err()` value and the interrupt is the last
event: no operation invocation follows it. -/
theorem loopFrom_interrupted (ctx : Ctx E) (cfg : Config E) (p : E → Bool) (fn : Nat → E) :
    ∀ fuel i, Event.interrupted ∈ (loopFrom ctx cfg p fn i fuel).1 →
      (loopFrom ctx cfg p fn i fuel).2 = some ctx.err ∧
      (loopFrom ctx cfg p fn i fuel).1.getLast? = some Event.interrupted := by
  intro fuel
  induction fuel with
  | zero => intro i h; simp [loopFrom] at h
  | succ f ih =>
      intro i hmem
      by_cases hi : ctx.interruptedAt i
      · have hw : (waitStep ctx cfg i).2 = true := by rw [waitStep_snd]; exact hi
        constructor
        · simp [loopFrom, hw]
        · simp only [loopFrom, hw, if_true]
          exact waitStep_getLast_interrupted ctx cfg i hi
      · have hi' : ctx.interruptedAt i = false := by simpa using hi
        have hw : (waitStep ctx cfg i).2 = false := by rw [waitStep_snd]; exact hi'
        have hnw : Event.interrupted ∉ (waitStep ctx cfg i).1 := by
          rw [interrupted_mem_waitStep]; simp [hi']
        simp only [loopFrom, hw, Bool.false_eq_true, if_false] at hmem ⊢
        by_cases hp0 : p (fn i)
        · simp only [hp0, if_true] at hmem ⊢
          have hmem' : Event.interrupted ∈ (loopFrom ctx cfg p fn (i + 1) f).1 := by
            rcases List.mem_append.1 hmem with h | h
            · exact absurd h hnw
            · rcases List.mem_cons.1 h with h | h
              · cases h
              · exact h
          obtain ⟨h1, h2⟩ := ih (i + 1) hmem'
          refine ⟨by rw [h1]; rfl, ?_⟩
          rw [List.getLast?_append_cons]
          rcases htev : (loopFrom ctx cfg p fn (i + 1) f).1 with _ | ⟨x, rest⟩
          · rw [htev] at h2; simp at h2
          · rw [htev] at h2
            rw [List.getLast?_cons_cons, h2]
        · simp only [hp0, Bool.false_eq_true, if_false] at hmem
          rcases List.mem_append.1 hmem with h | h
          · exact absurd h hnw
          · simp at h

/-- A run of the retry loop with no cancellation interrupt ends with the error
of its last operation invocation. -/
theorem loopFrom_no_interrupt (ctx : Ctx E) (cfg : Config E) (p : E → Bool) (fn : Nat → E) :
    ∀ fuel i, 1 ≤ fuel →
      Event.interrupted ∉ (loopFrom ctx cfg p fn i fuel).1 →
      (loopFrom ctx cfg p fn i fuel).2 =
        some (fn (i + countInvoked (loopFrom ctx cfg p fn i fuel).1 - 1)) ∧
      1 ≤ countInvoked (loopFrom ctx cfg p fn i fuel).1 := by
  intro fuel
  induction fuel with
  | zero => intro i h; omega
  | succ f ih =>
      intro i _ hmem
      by_cases hi : ctx.interruptedAt i
      · have hw : (waitStep ctx cfg i).2 = true := by rw [waitStep_snd]; exact hi
        simp only [loopFrom, hw, if_true] at hmem
        exact absurd ((interrupted_mem_waitStep ctx cfg i).2 hi) hmem
      · have hi' : ctx.interruptedAt i = false := by simpa using hi
        have hw : (waitStep ctx cfg i).2 = false := by rw [waitStep_snd]; exact hi'
        simp only [loopFrom, hw, Bool.false_eq_true, if_false] at hmem ⊢
        by_cases hp0 : p (fn i)
        · simp only [hp0, if_true] at hmem ⊢
          rcases Nat.eq_zero_or_pos f with hf | hf
          · subst hf
            simp [loopFrom, countInvoked_append, countInvoked_waitStep,
              countInvoked_cons_invoked, countInvoked_nil]
          · have hmem' : Event.interrupted ∉ (loopFrom ctx cfg p fn (i + 1) f).1 := by
              intro h
              exact hmem (List.mem_append.2 (Or.inr (List.mem_cons.2 (Or.inr h))))
            obtain ⟨h1, h2⟩ := ih (i + 1) hf hmem'
            rw [countInvoked_append, countInvoked_waitStep, countInvoked_cons_invoked, h1]
            refine ⟨?_, by omega⟩
            simp only [Option.getD_some]
            congr 2
            omega
        · simp only [hp0, Bool.false_eq_true, if_false]
          rw [countInvoked_append, countInvoked_waitStep]
          simp [countInvoked_cons_invoked, countInvoked_nil]

/-- If the predicate keeps saying retry up to the invocation at loop index `t`,
says stop there, and no wait up to index `t` is interrupted, the retry loop
performs exactly the iterations up to `t`, ends on that invocation (so no wait
follows it), and returns its error — whatever the cancellation signal does
after index `t`. -/
theorem loopFrom_stops_at (ctx : Ctx E) (cfg : Config E) (p : E → Bool) (fn : Nat → E)
    (t : Nat) (hpt : p (fn t) = false) :
    ∀ fuel i, i ≤ t → t < i + fuel →
      (∀ j, i ≤ j → j < t → p (fn j) = true) →
      (∀ j, i ≤ j → j ≤ t → ctx.interruptedAt j = false) →
      countInvoked (loopFrom ctx cfg p fn i fuel).1 = t - i + 1 ∧
      (loopFrom ctx cfg p fn i fuel).2 = some (fn t) ∧
      (loopFrom ctx cfg p fn i fuel).1.getLast? = some (Event.invoked t (fn t)) := by
  intro fuel
  induction fuel with
  | zero => intro i hit hti _ _; omega
  | succ f ih =>
      intro i hit hti hpj hcj
      have hw : (waitStep ctx cfg i).2 = false := by
        rw [waitStep_snd]; exact hcj i le_rfl hit
      simp only [loopFrom, hw, Bool.false_eq_true, if_false]
      rcases Nat.lt_or_ge i t with hlt | hge
      · have hpi : p (fn i) = true := hpj i le_rfl hlt
        simp only [hpi, if_true]
        obtain ⟨h1, h2, h3⟩ := ih (i + 1) hlt (by omega)
          (fun j hj hjt => hpj j (by omega) hjt)
          (fun j hj hjt => hcj j (by omega) hjt)
        refine ⟨?_, ?_, ?_⟩
        · rw [countInvoked_append, countInvoked_waitStep, countInvoked_cons_invoked, h1]
          omega
        · rw [h2]; rfl
        · rw [List.getLast?_append_cons]
          rcases htev : (loopFrom ctx cfg p fn (i + 1) f).1 with _ | ⟨x, rest⟩
          · rw [htev] at h3; simp at h3
          · rw [htev] at h3
            rw [List.getLast?_cons_cons, h3]
      · have hii : i = t := by omega
        subst hii
        simp only [hpt, Bool.false_eq_true, if_false]
        refine ⟨?_, by simp, ?_⟩
        · rw [countInvoked_append, countInvoked_waitStep, countInvoked_cons_invoked,
            countInvoked_nil]
          omega
        · rw [List.getLast?_append_cons]
          rfl

/-- Every run of `Func` starts by invoking the operation: the trace's first
event is the 0-th invocation (so no wait or cancellation check precedes it),
and at least one invocation is recorded. -/
theorem Func_head_invoked (ctx : Ctx E) (cfg : Config E) (fn : Nat → E) :
    (Func ctx cfg fn).1.head? = some (Event.invoked 0 (fn 0)) ∧
    1 ≤ countInvoked (Func ctx cfg fn).1 := by
  obtain ⟨ma, ro, d, df⟩ := cfg
  rcases ro with _ | p
  · simp [Func, countInvoked_cons_invoked, countInvoked_nil]
  · by_cases hma : ma < 1
    · simp [Func, hma, countInvoked_cons_invoked, countInvoked_nil]
    · by_cases hp0 : p (fn 0)
      · simp only [Func, hma, if_false, hp0, if_true]
        refine ⟨rfl, ?_⟩
        rw [countInvoked_cons_invoked]
        omega
      · simp [Func, hma, hp0, countInvoked_cons_invoked, countInvoked_nil]

theorem delayArgs_nil : delayArgs ([] : List (Event E)) = [] := rfl

theorem delayArgs_append (xs ys : List (Event E)) :
    delayArgs (xs ++ ys) = delayArgs xs ++ delayArgs ys :=
  List.filterMap_append _ _ _

theorem delayArgs_cons_invoked (k : Nat) (e : E) (tr : List (Event E)) :
    delayArgs (Event.invoked k e :: tr) = delayArgs tr := rfl

theorem delayArgs_waitStep (ctx : Ctx E) (cfg : Config E) (i : Nat)
    (f : Int → Int) (hdf : cfg.delayFn = some f) :
    delayArgs (waitStep ctx cfg i).1 = [Int.ofNat i] := by
  unfold waitStep delayArgs
  by_cases hi : ctx.interruptedAt i <;> simp [hdf, hi]

/-- With a delay function configured, the delay-function call arguments of a
retry-loop run starting at loop index `i` are exactly the consecutive indices
`i, i+1, ...` of its waits; the number of invocations equals the number of
waits, minus one exactly when the last wait was interrupted. -/
theorem loopFrom_delayArgs (ctx : Ctx E) (cfg : Config E) (p : E → Bool) (fn : Nat → E)
    (f : Int → Int) (hdf : cfg.delayFn = some f) :
    ∀ fuel i,
      delayArgs (loopFrom ctx cfg p fn i fuel).1 =
        (List.range' i (delayArgs (loopFrom ctx cfg p fn i fuel).1).length).map
          Int.ofNat ∧
      (Event.interrupted ∈ (loopFrom ctx cfg p fn i fuel).1 →
        countInvoked (loopFrom ctx cfg p fn i fuel).1 + 1 =
          (delayArgs (loopFrom ctx cfg p fn i fuel).1).length) ∧
      (Event.interrupted ∉ (loopFrom ctx cfg p fn i fuel).1 →
        countInvoked (loopFrom ctx cfg p fn i fuel).1 =
          (delayArgs (loopFrom ctx cfg p fn i fuel).1).length) := by
  intro fuel
  induction fuel with
  | zero =>
      intro i
      refine ⟨rfl, ?_, ?_⟩ <;> intro h
      · simp [loopFrom] at h
      · simp [loopFrom, countInvoked_nil, delayArgs_nil]
  | succ fl ih =>
      intro i
      have hargs := delayArgs_waitStep ctx cfg i f hdf
      by_cases hi : ctx.interruptedAt i
      · have hw : (waitStep ctx cfg i).2 = true := by rw [waitStep_snd]; exact hi
        have hm : Event.interrupted ∈ (waitStep ctx cfg i).1 :=
          (interrupted_mem_waitStep ctx cfg i).2 hi
        simp only [loopFrom, hw, if_true]
        refine ⟨?_, ?_, ?_⟩
        · rw [hargs]; rfl
        · intro _
          rw [countInvoked_waitStep, hargs]
          rfl
        · intro h
          exact absurd hm h
      · have hi' : ctx.interruptedAt i = false := by simpa using hi
        have hw : (waitStep ctx cfg i).2 = false := by rw [waitStep_snd]; exact hi'
        have hnw : Event.interrupted ∉ (waitStep ctx cfg i).1 := by
          rw [interrupted_mem_waitStep]; simp [hi']
        simp only [loopFrom, hw, Bool.false_eq_true, if_false]
        by_cases hp0 : p (fn i)
        · simp only [hp0, if_true]
          obtain ⟨ih1, ih2, ih3⟩ := ih (i + 1)
          have htr : delayArgs ((waitStep ctx cfg i).1 ++
              Event.invoked i (fn i) :: (loopFrom ctx cfg p fn (i + 1) fl).1) =
              Int.ofNat i :: delayArgs (loopFrom ctx cfg p fn (i + 1) fl).1 := by
            rw [delayArgs_append, hargs, delayArgs_cons_invoked]
            rfl
          have hcnt : countInvoked ((waitStep ctx cfg i).1 ++
              Event.invoked i (fn i) :: (loopFrom ctx cfg p fn (i + 1) fl).1) =
              countInvoked (loopFrom ctx cfg p fn (i + 1) fl).1 + 1 := by
            rw [countInvoked_append, countInvoked_waitStep, countInvoked_cons_invoked]
            omega
          have hmem : Event.interrupted ∈ ((waitStep ctx cfg i).1 ++
              Event.invoked i (fn i) :: (loopFrom ctx cfg p fn (i + 1) fl).1) ↔
              Event.interrupted ∈ (loopFrom ctx cfg p fn (i + 1) fl).1 := by
            simp only [List.mem_append, List.mem_cons]
            constructor
            · rintro (h | h | h)
              · exact absurd h hnw
              · cases h
              · exact h
            · intro h
              exact Or.inr (Or.inr h)
          refine ⟨?_, ?_, ?_⟩
          · rw [htr]
            simp only [List.length_cons, List.range'_succ, List.map_cons]
            rw [← ih1]
          · intro h
            rw [hcnt, htr]
            have := ih2 (hmem.1 h)
            simp only [List.length_cons]
            omega
          · intro h
            rw [hcnt, htr]
            have := ih3 (fun hh => h (hmem.2 hh))
            simp only [List.length_cons]
            omega
        · simp only [hp0, Bool.false_eq_true, if_false]
          have htr : delayArgs ((waitStep ctx cfg i).1 ++ [Event.invoked i (fn i)]) =
              [Int.ofNat i] := by
            rw [delayArgs_append, hargs]
            rfl
          have hcnt : countInvoked ((waitStep ctx cfg i).1 ++ [Event.invoked i (fn i)]) = 1 := by
            rw [countInvoked_append, countInvoked_waitStep, countInvoked_cons_invoked,
              countInvoked_nil]
          refine ⟨?_, ?_, ?_⟩
          · rw [htr]; rfl
          · intro h
            rcases List.mem_append.1 h with h | h
            · exact absurd h hnw
            · simp at h
          · intro _
            rw [htr, hcnt]
            rfl

/-- A run of the retry loop under a cancellation signal that never fires
records no interrupt event. -/
theorem interrupted_not_mem_loopFrom (ctx : Ctx E) (cfg : Config E) (p : E → Bool)
    (fn : Nat → E) (hc : ∀ j, ctx.interruptedAt j = false) :
    ∀ fuel i, Event.interrupted ∉ (loopFrom ctx cfg p fn i fuel).1 := by
  intro fuel
  induction fuel with
  | zero => intro i h; simp [loopFrom] at h
  | succ fl ih =>
      intro i h
      have hw : (waitStep ctx cfg i).2 = false := by rw [waitStep_snd]; exact hc i
      have hnw : Event.interrupted ∉ (waitStep ctx cfg i).1 := by
        rw [interrupted_mem_waitStep]; simp [hc i]
      simp only [loopFrom, hw, Bool.false_eq_true, if_false] at h
      by_cases hp0 : p (fn i)
      · simp only [hp0, if_true] at h
        rcases List.mem_append.1 h with h | h
        · exact absurd h hnw
        · rcases List.mem_cons.1 h with h | h
          · cases h
          · exact absurd h (ih (i + 1))
      · simp only [hp0, Bool.false_eq_true, if_false] at h
        rcases List.mem_append.1 h with h | h
        · exact absurd h hnw
        · simp at h

/-- With a delay function set, the wait step does not depend on the fixed
`Delay` field. -/
theorem waitStep_delay_irrelevant (ctx : Ctx E) (ma : Int) (ro : Option (E → Bool))
    (d1 d2 : Int) (f : Int → Int) (i : Nat) :
    waitStep ctx ⟨ma, ro, d1, some f⟩ i = waitStep ctx ⟨ma, ro, d2, some f⟩ i := by
  unfold waitStep
  simp

theorem loopFrom_delay_irrelevant (ctx : Ctx E) (ma : Int) (ro : Option (E → Bool))
    (d1 d2 : Int) (f : Int → Int) (p : E → Bool) (fn : Nat → E) :
    ∀ fuel i, loopFrom ctx ⟨ma, ro, d1, some f⟩ p fn i fuel =
      loopFrom ctx ⟨ma, ro, d2, some f⟩ p fn i fuel := by
  intro fuel
  induction fuel with
  | zero => intro i; rfl
  | succ fl ih =>
      intro i
      simp only [loopFrom, waitStep_delay_irrelevant ctx ma ro d1 d2 f i, ih (i + 1)]

/-- Every event a wait step emits under a configured delay function is the
delay-function call with the clamped result, the wait for that clamped
duration, or the interrupt. -/
theorem waitStep_mem_delayFn (ctx : Ctx E) (cfg : Config E) (i : Nat)
    (f : Int → Int) (hdf : cfg.delayFn = some f) :
    ∀ ev ∈ (waitStep ctx cfg i).1,
      ev = Event.delayCalled (Int.ofNat i) (max 0 (f (Int.ofNat i))) ∨
      ev = Event.waited (max 0 (f (Int.ofNat i))) ∨
      ev = Event.interrupted := by
  intro ev hev
  unfold waitStep at hev
  by_cases hi : ctx.interruptedAt i <;> simp [hdf, hi] at hev <;> tauto

/-- In a retry-loop run under a configured delay function, every blocking wait
lasts `max 0 (f a)` for its 1-based wait index `a`, and every delay-function
call records the clamped, non-negative result `max 0 (f a)`. -/
theorem loopFrom_mem_delayFn (ctx : Ctx E) (cfg : Config E) (p : E → Bool)
    (fn : Nat → E) (f : Int → Int) (hdf : cfg.delayFn = some f) :
    ∀ fuel i, 1 ≤ i → ∀ ev ∈ (loopFrom ctx cfg p fn i fuel).1,
      (∀ dv, ev = Event.waited dv → ∃ a : Nat, 1 ≤ a ∧ dv = max 0 (f (Int.ofNat a))) ∧
      (∀ a r, ev = Event.delayCalled a r → r = max 0 (f a) ∧ 0 ≤ r) := by
  intro fuel
  induction fuel with
  | zero => intro i _ ev hev; simp [loopFrom] at hev
  | succ fl ih =>
      intro i hi1 ev hev
      have fromWait : ev ∈ (waitStep ctx cfg i).1 →
          (∀ dv, ev = Event.waited dv → ∃ a : Nat, 1 ≤ a ∧ dv = max 0 (f (Int.ofNat a))) ∧
          (∀ a r, ev = Event.delayCalled a r → r = max 0 (f a) ∧ 0 ≤ r) := by
        intro hw
        rcases waitStep_mem_delayFn ctx cfg i f hdf ev hw with h | h | h <;> subst h
        · constructor
          · intro dv hdv; cases hdv
          · intro a r har
            cases har
            exact ⟨rfl, le_max_left 0 _⟩
        · constructor
          · intro dv hdv
            cases hdv
            exact ⟨i, hi1, rfl⟩
          · intro a r har; cases har
        · constructor
          · intro dv hdv; cases hdv
          · intro a r har; cases har
      by_cases hi : ctx.interruptedAt i
      · have hw : (waitStep ctx cfg i).2 = true := by rw [waitStep_snd]; exact hi
        simp only [loopFrom, hw, if_true] at hev
        exact fromWait hev
      · have hi' : ctx.interruptedAt i = false := by simpa using hi
        have hw : (waitStep ctx cfg i).2 = false := by rw [waitStep_snd]; exact hi'
        simp only [loopFrom, hw, Bool.false_eq_true, if_false] at hev
        by_cases hp0 : p (fn i)
        · simp only [hp0, if_true] at hev
          rcases List.mem_append.1 hev with h | h
          · exact fromWait h
          · rcases List.mem_cons.1 h with h | h
            · subst h
              constructor
              · intro dv hdv; cases hdv
              · intro a r har; cases har
            · exact ih (i + 1) (by omega) ev h
        · simp only [hp0, Bool.false_eq_true, if_false] at hev
          rcases List.mem_append.1 hev with h | h
          · exact fromWait h
          · simp only [List.mem_singleton] at h
            subst h
            constructor
            · intro dv hdv; cases hdv
            · intro a r har; cases har

theorem lastInvokedIdx_append (xs ys : List (Event E)) :
    lastInvokedIdx (xs ++ ys) = (lastInvokedIdx ys).or (lastInvokedIdx xs) := by
  unfold lastInvokedIdx
  rw [List.reverse_append, List.findSome?_append]

theorem lastInvokedIdx_cons_invoked (k : Nat) (e : E) (tr : List (Event E)) :
    lastInvokedIdx (Event.invoked k e :: tr) = (lastInvokedIdx tr).or (some k) :=
  lastInvokedIdx_append [Event.invoked k e] tr

/-- Prepending invocation-free events and one invocation to a trace moves the
closure's `val` from `cur` past that invocation's value. -/
theorem valAt_append_invoked (fnv : Nat → T × E) (cur : T) (xs tr : List (Event E))
    (i : Nat) (e : E) (hxs : lastInvokedIdx xs = none) :
    valAt fnv cur (xs ++ Event.invoked i e :: tr) = valAt fnv (fnv i).1 tr := by
  unfold valAt
  rw [lastInvokedIdx_append, lastInvokedIdx_cons_invoked, hxs, Option.or_none]
  cases h : lastInvokedIdx tr <;> simp

/-- The retry loop returns `none` only when it had no iterations left, in which
case it also emitted no events. -/
theorem loopFrom_none (ctx : Ctx E) (cfg : Config E) (p : E → Bool) (fn : Nat → E) :
    ∀ fuel i, (loopFrom ctx cfg p fn i fuel).2 = none →
      (loopFrom ctx cfg p fn i fuel).1 = [] ∧ fuel = 0 := by
  intro fuel i h
  cases fuel with
  | zero => exact ⟨rfl, rfl⟩
  | succ fl =>
      exfalso
      by_cases hw : (waitStep ctx cfg i).2
      · simp [loopFrom, hw] at h
      · by_cases hp0 : p (fn i) <;> simp [loopFrom, hw, hp0] at h

/-- The inlined value-carrying retry loop of the standalone `FuncVal` emits the
same events as the error-only retry loop run on the error components, and its
outcome pairs the loop's error with the value of the last invocation (or the
incoming `cur` when the loop aborts before invoking). -/
theorem loopFromVal_eq_loopFrom (ctx : Ctx E) (cfg : Config E) (p : E → Bool)
    (fnv : Nat → T × E) :
    ∀ fuel i cur,
      (loopFromVal ctx cfg p fnv cur i fuel).1 =
        (loopFrom ctx cfg p (fun k => (fnv k).2) i fuel).1 ∧
      (loopFromVal ctx cfg p fnv cur i fuel).2 =
        ((loopFrom ctx cfg p (fun k => (fnv k).2) i fuel).2).map
          (fun e =>
            (valAt fnv cur (loopFrom ctx cfg p (fun k => (fnv k).2) i fuel).1, e)) := by
  intro fuel
  induction fuel with
  | zero => intro i cur; exact ⟨rfl, rfl⟩
  | succ fl ih =>
      intro i cur
      by_cases hwb : (waitStep ctx cfg i).2
      · refine ⟨by simp only [loopFromVal, loopFrom, hwb, if_true], ?_⟩
        simp only [loopFromVal, loopFrom, hwb, if_true, Option.map_some']
        have hv : valAt fnv cur (waitStep ctx cfg i).1 = cur := by
          unfold valAt
          rw [lastInvokedIdx_waitStep]
        rw [hv]
      · have hwb' : (waitStep ctx cfg i).2 = false := by simpa using hwb
        by_cases hp0 : p ((fnv i).2)
        · obtain ⟨ih1, ih2⟩ := ih (i + 1) ((fnv i).1)
          refine ⟨?_, ?_⟩
          · simp only [loopFromVal, loopFrom, hwb', Bool.false_eq_true, if_false,
              hp0, if_true]
            rw [ih1]
          · simp only [loopFromVal, loopFrom, hwb', Bool.false_eq_true, if_false,
              hp0, if_true]
            rcases hr : (loopFrom ctx cfg p (fun k => (fnv k).2) (i + 1) fl).2
              with _ | e'
            · obtain ⟨hnil, _⟩ := loopFrom_none ctx cfg p (fun k => (fnv k).2) fl (i + 1) hr
              rw [ih2, hr, hnil]
              simp only [Option.map_none', Option.getD_none, Option.map_some']
              rw [valAt_append_invoked fnv cur (waitStep ctx cfg i).1 [] i ((fnv i).2)
                (lastInvokedIdx_waitStep ctx cfg i)]
              rfl
            · rw [ih2, hr]
              simp only [Option.map_some', Option.getD_some]
              rw [valAt_append_invoked fnv cur (waitStep ctx cfg i).1 _ i ((fnv i).2)
                (lastInvokedIdx_waitStep ctx cfg i)]
        · refine ⟨by simp only [loopFromVal, loopFrom, hwb', Bool.false_eq_true,
            if_false, hp0], ?_⟩
          simp only [loopFromVal, loopFrom, hwb', Bool.false_eq_true, if_false, hp0,
            Option.map_some']
          rw [valAt_append_invoked fnv cur (waitStep ctx cfg i).1 [] i ((fnv i).2)
            (lastInvokedIdx_waitStep ctx cfg i)]
          rfl

/-! The claims. -/

/-- Claim C1: with a predicate set, `MaxAttempts = N ≥ 1`, a predicate
returning true on every error the operation actually produces (an
always-failing, always-retryable operation — the predicate's value on errors
never produced is irrelevant), and a never-canceled signal, `Func` invokes the
operation exactly N times and returns the N-th invocation's error unchanged —
no distinct attempts-exhausted error. -/
theorem Func_exhausts_attempts (ctx : Ctx E) (p : E → Bool) (N D : Int)
    (df : Option (Int → Int)) (fn : Nat → E)
    (hN : 1 ≤ N) (hp : ∀ k, p (fn k) = true) (hc : ∀ i, ctx.interruptedAt i = false) :
    countInvoked (Func ctx ⟨N, some p, D, df⟩ fn).1 = N.toNat ∧
    (Func ctx ⟨N, some p, D, df⟩ fn).2 = fn (N.toNat - 1) := by
  have hN1 : ¬ N < 1 := by omega
  simp only [Func, hN1, if_false, hp 0, if_true]
  rcases Nat.eq_zero_or_pos (N.toNat - 1) with hf | hf
  · have hone : N.toNat = 1 := by omega
    rw [hone] at hf ⊢
    simp [hf, loopFrom, countInvoked_cons_invoked, countInvoked_nil]
  · obtain ⟨h1, h2⟩ :=
      loopFrom_all_retry ctx ⟨N, some p, D, df⟩ p fn hp hc (N.toNat - 1) 1 hf
    refine ⟨?_, ?_⟩
    · rw [countInvoked_cons_invoked, h1]
      omega
    · rw [h2]
      simp only [Option.getD_some]
      congr 1
      omega

/-- Witness for C1: three attempts, no cancellation, the Go idiom
`RetryOn: err != nil` (predicate false on the never-produced nil error 0) with
an operation that always fails with error 5. -/
theorem Func_exhausts_attempts_witness :
    countInvoked (Func ⟨fun _ => false, 99⟩
      ⟨3, some (fun e => decide (e ≠ 0)), 0, none⟩ (fun _ => 5)).1 = 3 ∧
    (Func ⟨fun _ => false, 99⟩
      ⟨3, some (fun e => decide (e ≠ 0)), 0, none⟩ (fun _ => 5)).2 = 5 :=
  Func_exhausts_attempts ⟨fun _ => false, 99⟩ (fun e => decide (e ≠ 0)) 3 0 none
    (fun _ => 5) (by decide) (fun _ => rfl) (fun _ => rfl)

/-- Claim C3: in a main-loop run of `Func`, if an inter-attempt wait is
interrupted by cancellation then the interrupt is the trace's last event (the
operation is not invoked for that iteration) and the returned error is the
signal's `Context.Err()` value; and only then — a run whose trace has no
interrupt returns the last operation invocation's own error. -/
theorem Func_interrupt_returns_ctx_err (ctx : Ctx E) (p : E → Bool) (N D : Int)
    (df : Option (Int → Int)) (fn : Nat → E) (hN : 1 ≤ N) :
    (Event.interrupted ∈ (Func ctx ⟨N, some p, D, df⟩ fn).1 →
      (Func ctx ⟨N, some p, D, df⟩ fn).2 = ctx.err ∧
      (Func ctx ⟨N, some p, D, df⟩ fn).1.getLast? = some Event.interrupted) ∧
    (Event.interrupted ∉ (Func ctx ⟨N, some p, D, df⟩ fn).1 →
      (Func ctx ⟨N, some p, D, df⟩ fn).2 =
        fn (countInvoked (Func ctx ⟨N, some p, D, df⟩ fn).1 - 1)) := by
  have hN1 : ¬ N < 1 := by omega
  simp only [Func, hN1, if_false]
  by_cases hp0 : p (fn 0)
  · simp only [hp0, if_true]
    constructor
    · intro hmem
      have hmem' : Event.interrupted ∈
          (loopFrom ctx ⟨N, some p, D, df⟩ p fn 1 (N.toNat - 1)).1 := by
        rcases List.mem_cons.1 hmem with h | h
        · cases h
        · exact h
      obtain ⟨h1, h2⟩ := loopFrom_interrupted ctx ⟨N, some p, D, df⟩ p fn (N.toNat - 1) 1 hmem'
      refine ⟨by rw [h1]; rfl, ?_⟩
      rcases htev : (loopFrom ctx ⟨N, some p, D, df⟩ p fn 1 (N.toNat - 1)).1 with _ | ⟨x, rest⟩
      · rw [htev] at h2; simp at h2
      · rw [htev] at h2
        rw [List.getLast?_cons_cons, h2]
    · intro hmem
      have hmem' : Event.interrupted ∉
          (loopFrom ctx ⟨N, some p, D, df⟩ p fn 1 (N.toNat - 1)).1 := by
        intro h
        exact hmem (List.mem_cons.2 (Or.inr h))
      rcases Nat.eq_zero_or_pos (N.toNat - 1) with hf | hf
      · rw [hf]
        simp [loopFrom, countInvoked_cons_invoked, countInvoked_nil]
      · obtain ⟨h1, h2⟩ :=
          loopFrom_no_interrupt ctx ⟨N, some p, D, df⟩ p fn (N.toNat - 1) 1 hf hmem'
        rw [countInvoked_cons_invoked, h1]
        simp only [Option.getD_some]
        congr 1
        omega
  · simp only [hp0, Bool.false_eq_true, if_false]
    constructor
    · intro hmem; simp at hmem
    · intro _
      simp [countInvoked_cons_invoked, countInvoked_nil]

/-- Witness for C3: three attempts, retryable failures, cancellation observed
at the second wait; and the same shape confirms the no-interrupt direction at a
run that exhausts its attempts. -/
theorem Func_interrupt_returns_ctx_err_witness :
    (Event.interrupted ∈ (Func ⟨fun i => decide (i = 2), 99⟩
        ⟨3, some (fun _ => true), 0, none⟩ (fun k => k)).1 →
      (Func ⟨fun i => decide (i = 2), 99⟩
        ⟨3, some (fun _ => true), 0, none⟩ (fun k => k)).2 = 99 ∧
      (Func ⟨fun i => decide (i = 2), 99⟩
        ⟨3, some (fun _ => true), 0, none⟩ (fun k => k)).1.getLast? =
          some Event.interrupted) ∧
    (Event.interrupted ∉ (Func ⟨fun i => decide (i = 2), 99⟩
        ⟨3, some (fun _ => true), 0, none⟩ (fun k => k)).1 →
      (Func ⟨fun i => decide (i = 2), 99⟩
        ⟨3, some (fun _ => true), 0, none⟩ (fun k => k)).2 =
        (fun k => k) (countInvoked (Func ⟨fun i => decide (i = 2), 99⟩
          ⟨3, some (fun _ => true), 0, none⟩ (fun k => k)).1 - 1)) :=
  Func_interrupt_returns_ctx_err ⟨fun i => decide (i = 2), 99⟩ (fun _ => true)
    3 0 none (fun k => k) (by decide)

/-- Claim C4: with a predicate set and `MaxAttempts = N ≥ 1`, if the predicate
returns false for the outcome of attempt `K ≤ N` (1-based) and true for all
earlier attempts, and no wait before those attempts is interrupted, then
exactly `K` invocations occur, the trace ends on the K-th invocation (no
further wait), and its outcome is returned as final — regardless of the
cancellation signal's state from that point on (no hypothesis constrains it at
indices `≥ K`, so an already-active signal does not override the outcome). -/
theorem Func_stops_when_predicate_false (ctx : Ctx E) (p : E → Bool) (N D : Int)
    (df : Option (Int → Int)) (fn : Nat → E) (K : Nat)
    (hK1 : 1 ≤ K) (hKN : (K : Int) ≤ N)
    (hpK : p (fn (K - 1)) = false)
    (hpj : ∀ j, j < K - 1 → p (fn j) = true)
    (hcj : ∀ j, 1 ≤ j → j ≤ K - 1 → ctx.interruptedAt j = false) :
    countInvoked (Func ctx ⟨N, some p, D, df⟩ fn).1 = K ∧
    (Func ctx ⟨N, some p, D, df⟩ fn).2 = fn (K - 1) ∧
    (Func ctx ⟨N, some p, D, df⟩ fn).1.getLast? =
      some (Event.invoked (K - 1) (fn (K - 1))) := by
  have hN1 : ¬ N < 1 := by omega
  simp only [Func, hN1, if_false]
  rcases Nat.eq_or_lt_of_le hK1 with hK | hK
  · have h0 : K - 1 = 0 := by omega
    rw [h0] at hpK
    simp only [hpK, Bool.false_eq_true, if_false]
    rw [h0]
    refine ⟨?_, rfl, rfl⟩
    simp only [countInvoked_cons_invoked, countInvoked_nil]
    omega
  · have hp0 : p (fn 0) = true := hpj 0 (by omega)
    simp only [hp0, if_true]
    obtain ⟨h1, h2, h3⟩ := loopFrom_stops_at ctx ⟨N, some p, D, df⟩ p fn (K - 1) hpK
      (N.toNat - 1) 1 (by omega) (by omega)
      (fun j hj hjt => hpj j hjt)
      (fun j hj hjt => hcj j hj hjt)
    refine ⟨?_, ?_, ?_⟩
    · rw [countInvoked_cons_invoked, h1]
      omega
    · rw [h2]; rfl
    · rcases htev : (loopFrom ctx ⟨N, some p, D, df⟩ p fn 1 (N.toNat - 1)).1
        with _ | ⟨x, rest⟩
      · rw [htev] at h3; simp at h3
      · rw [htev] at h3
        rw [List.getLast?_cons_cons, h3]

/-- Witness for C4: attempt 1 fails retryably, attempt 2 succeeds, and the
cancellation signal is active from the second wait on — the success is still
returned. -/
theorem Func_stops_when_predicate_false_witness :
    countInvoked (Func ⟨fun j => decide (2 ≤ j), 99⟩
      ⟨3, some (fun e => decide (e < 1)), 0, none⟩ (fun k => k)).1 = 2 ∧
    (Func ⟨fun j => decide (2 ≤ j), 99⟩
      ⟨3, some (fun e => decide (e < 1)), 0, none⟩ (fun k => k)).2 = 1 ∧
    (Func ⟨fun j => decide (2 ≤ j), 99⟩
      ⟨3, some (fun e => decide (e < 1)), 0, none⟩ (fun k => k)).1.getLast? =
        some (Event.invoked 1 1) :=
  Func_stops_when_predicate_false ⟨fun j => decide (2 ≤ j), 99⟩
    (fun e => decide (e < 1)) 3 0 none (fun k => k) 2
    (by decide) (by decide) (by decide)
    (fun j hj => by
      have hj0 : j = 0 := by omega
      subst hj0; rfl)
    (fun j hj1 hj2 => by
      have hj0 : j = 1 := by omega
      subst hj0; rfl)

/-- Claim C5: for every context and `Config`, `Func` and `FuncVal` invoke the
operation at least once, and the very first trace event is the 0-th invocation
(no wait, no cancellation check before it); moreover, with `MaxAttempts > 1`, a
pre-active cancellation signal and a retryable first-attempt error, the first
invocation still happens and the run then returns the cancellation error from
the first wait, after exactly that one invocation. -/
theorem Func_first_attempt_always_runs
    (ctx ctx2 : Ctx E) (cfg cfg2 : Config E) (fn fn2 : Nat → E)
    (fnv : Nat → T × E) (dflt : T) (p : E → Bool)
    (hro : cfg.RetryOn = some p) (hma : 2 ≤ cfg.MaxAttempts)
    (hp0 : p (fn 0) = true) (hi : ctx.interruptedAt 1 = true) :
    ((Func ctx2 cfg2 fn2).1.head? = some (Event.invoked 0 (fn2 0)) ∧
     1 ≤ countInvoked (Func ctx2 cfg2 fn2).1 ∧
     (FuncVal ctx2 cfg2 fnv dflt).1.head? = some (Event.invoked 0 ((fnv 0).2)) ∧
     1 ≤ countInvoked (FuncVal ctx2 cfg2 fnv dflt).1) ∧
    ((Func ctx cfg fn).1.head? = some (Event.invoked 0 (fn 0)) ∧
     countInvoked (Func ctx cfg fn).1 = 1 ∧
     (Func ctx cfg fn).2 = ctx.err) := by
  constructor
  · obtain ⟨ha, hb⟩ := Func_head_invoked ctx2 cfg2 fn2
    obtain ⟨hc, hd⟩ := Func_head_invoked ctx2 cfg2 (fun k => (fnv k).2)
    exact ⟨ha, hb, hc, hd⟩
  · obtain ⟨ma, ro, d, df⟩ := cfg
    simp only at hro hma
    subst hro
    have hma1 : ¬ ma < 1 := by omega
    simp only [Func, hma1, if_false, hp0, if_true]
    obtain ⟨f, hf⟩ : ∃ f, ma.toNat - 1 = f + 1 := ⟨ma.toNat - 2, by omega⟩
    rw [hf]
    have hw : (waitStep ctx ⟨ma, some p, d, df⟩ 1).2 = true := by
      rw [waitStep_snd]; exact hi
    simp only [loopFrom, hw, if_true]
    refine ⟨rfl, ?_, rfl⟩
    rw [countInvoked_cons_invoked, countInvoked_waitStep]

/-- Witness for C5: the cancellation signal is active from the very start,
`MaxAttempts = 3`, every error retryable; the operation still runs once and the
run returns the cancellation error 99. -/
theorem Func_first_attempt_always_runs_witness :
    ((Func ⟨fun _ => true, 99⟩ ⟨3, some (fun _ => true), 0, none⟩ (fun k => k)).1.head? =
        some (Event.invoked 0 0) ∧
     1 ≤ countInvoked (Func ⟨fun _ => true, 99⟩
        ⟨3, some (fun _ => true), 0, none⟩ (fun k => k)).1 ∧
     (FuncVal ⟨fun _ => true, 99⟩ ⟨3, some (fun _ => true), 0, none⟩
        (fun k => (k + 1, k)) 0).1.head? = some (Event.invoked 0 0) ∧
     1 ≤ countInvoked (FuncVal ⟨fun _ => true, 99⟩
        ⟨3, some (fun _ => true), 0, none⟩ (fun k => (k + 1, k)) 0).1) ∧
    ((Func ⟨fun _ => true, 99⟩ ⟨3, some (fun _ => true), 0, none⟩ (fun k => k)).1.head? =
        some (Event.invoked 0 0) ∧
     countInvoked (Func ⟨fun _ => true, 99⟩
        ⟨3, some (fun _ => true), 0, none⟩ (fun k => k)).1 = 1 ∧
     (Func ⟨fun _ => true, 99⟩ ⟨3, some (fun _ => true), 0, none⟩ (fun k => k)).2 = 99) :=
  Func_first_attempt_always_runs ⟨fun _ => true, 99⟩ ⟨fun _ => true, 99⟩
    ⟨3, some (fun _ => true), 0, none⟩ ⟨3, some (fun _ => true), 0, none⟩
    (fun k => k) (fun k => k) (fun k => (k + 1, k)) 0 (fun _ => true)
    rfl (by decide) rfl rfl

/-- Claim C6: whenever a delay function is configured, the sequence of its call
arguments over a run of `Func` is `1, 2, 3, ...` — the k-th wait receives `k`,
so it is 1-based and never 0 — and in an uninterrupted run the invocations
number one more than the waits, i.e. the wait that received `k` immediately
precedes the (k+1)-th overall invocation: upcoming retry attempt number `k`. -/
theorem Func_delay_args_one_based (ctx : Ctx E) (cfg : Config E)
    (fn : Nat → E) (f : Int → Int) (hdf : cfg.delayFn = some f) :
    delayArgs (Func ctx cfg fn).1 =
      (List.range' 1 (delayArgs (Func ctx cfg fn).1).length).map Int.ofNat ∧
    (∀ a ∈ delayArgs (Func ctx cfg fn).1, 1 ≤ a) ∧
    (Event.interrupted ∉ (Func ctx cfg fn).1 →
      countInvoked (Func ctx cfg fn).1 = (delayArgs (Func ctx cfg fn).1).length + 1) ∧
    (Event.interrupted ∈ (Func ctx cfg fn).1 →
      countInvoked (Func ctx cfg fn).1 = (delayArgs (Func ctx cfg fn).1).length) := by
  obtain ⟨ma, ro, d, df⟩ := cfg
  simp only at hdf
  subst hdf
  have fast : ∀ tr : List (Event E), tr = [Event.invoked 0 (fn 0)] →
      delayArgs tr = (List.range' 1 (delayArgs tr).length).map Int.ofNat ∧
      (∀ a ∈ delayArgs tr, 1 ≤ a) ∧
      (Event.interrupted ∉ tr → countInvoked tr = (delayArgs tr).length + 1) ∧
      (Event.interrupted ∈ tr → countInvoked tr = (delayArgs tr).length) := by
    rintro _ rfl
    refine ⟨rfl, ?_, ?_, ?_⟩
    · intro a ha; simp [delayArgs] at ha
    · intro _; rfl
    · intro h; simp at h
  rcases ro with _ | p
  · exact fast _ rfl
  · by_cases hma : ma < 1
    · have : Func ctx ⟨ma, some p, d, some f⟩ fn = ([.invoked 0 (fn 0)], fn 0) := by
        simp [Func, hma]
      rw [this]
      exact fast _ rfl
    · by_cases hp0 : p (fn 0)
      · simp only [Func, hma, if_false, hp0, if_true]
        obtain ⟨l1, l2, l3⟩ := loopFrom_delayArgs ctx ⟨ma, some p, d, some f⟩ p fn f rfl
          (ma.toNat - 1) 1
        refine ⟨?_, ?_, ?_, ?_⟩
        · rw [delayArgs_cons_invoked]
          exact l1
        · intro a ha
          rw [delayArgs_cons_invoked, l1] at ha
          obtain ⟨j, hj, rfl⟩ := List.mem_map.1 ha
          have h1j := (List.mem_range'_1.1 hj).1
          simpa [Int.ofNat_eq_coe] using Int.ofNat_le.2 h1j
        · intro h
          have h' : Event.interrupted ∉
              (loopFrom ctx ⟨ma, some p, d, some f⟩ p fn 1 (ma.toNat - 1)).1 :=
            fun hh => h (List.mem_cons.2 (Or.inr hh))
          rw [countInvoked_cons_invoked, delayArgs_cons_invoked, l3 h']
        · intro h
          have h' : Event.interrupted ∈
              (loopFrom ctx ⟨ma, some p, d, some f⟩ p fn 1 (ma.toNat - 1)).1 := by
            rcases List.mem_cons.1 h with h | h
            · cases h
            · exact h
          rw [countInvoked_cons_invoked, delayArgs_cons_invoked]
          exact l2 h'
      · have : Func ctx ⟨ma, some p, d, some f⟩ fn = ([.invoked 0 (fn 0)], fn 0) := by
          simp [Func, hma, hp0]
        rw [this]
        exact fast _ rfl

/-- Witness for C6: `MaxAttempts = 3`, delay function `a ↦ 10 - a`, retryable
failures, no cancellation; both fixed delay and function are set. -/
theorem Func_delay_args_one_based_witness :
    delayArgs (Func ⟨fun _ => false, 99⟩
      ⟨3, some (fun _ => true), 5, some (fun a => 10 - a)⟩ (fun k => k)).1 =
      (List.range' 1 (delayArgs (Func ⟨fun _ => false, 99⟩
        ⟨3, some (fun _ => true), 5, some (fun a => 10 - a)⟩ (fun k => k)).1).length).map
          Int.ofNat ∧
    (∀ a ∈ delayArgs (Func ⟨fun _ => false, 99⟩
      ⟨3, some (fun _ => true), 5, some (fun a => 10 - a)⟩ (fun k => k)).1, 1 ≤ a) ∧
    (Event.interrupted ∉ (Func ⟨fun _ => false, 99⟩
      ⟨3, some (fun _ => true), 5, some (fun a => 10 - a)⟩ (fun k => k)).1 →
      countInvoked (Func ⟨fun _ => false, 99⟩
        ⟨3, some (fun _ => true), 5, some (fun a => 10 - a)⟩ (fun k => k)).1 =
        (delayArgs (Func ⟨fun _ => false, 99⟩
          ⟨3, some (fun _ => true), 5, some (fun a => 10 - a)⟩ (fun k => k)).1).length + 1) ∧
    (Event.interrupted ∈ (Func ⟨fun _ => false, 99⟩
      ⟨3, some (fun _ => true), 5, some (fun a => 10 - a)⟩ (fun k => k)).1 →
      countInvoked (Func ⟨fun _ => false, 99⟩
        ⟨3, some (fun _ => true), 5, some (fun a => 10 - a)⟩ (fun k => k)).1 =
        (delayArgs (Func ⟨fun _ => false, 99⟩
          ⟨3, some (fun _ => true), 5, some (fun a => 10 - a)⟩ (fun k => k)).1).length) :=
  Func_delay_args_one_based ⟨fun _ => false, 99⟩
    ⟨3, some (fun _ => true), 5, some (fun a => 10 - a)⟩ (fun k => k)
    (fun a => 10 - a) rfl

/-- Claim C8: with `MaxAttempts = 3`, a delay function, an always-true
predicate, an always-failing operation and no cancellation, the delay function
is called exactly twice, with argument 1 then argument 2 — never 0, never 3. -/
theorem Func_delay_called_twice_for_three_attempts (ctx : Ctx E) (p : E → Bool)
    (D : Int) (f : Int → Int) (fn : Nat → E)
    (hp : ∀ e, p e = true) (hc : ∀ i, ctx.interruptedAt i = false) :
    delayArgs (Func ctx ⟨3, some p, D, some f⟩ fn).1 = [1, 2] := by
  simp only [Func, show ¬ (3 : Int) < 1 by norm_num, if_false, hp (fn 0), if_true]
  have hnm : Event.interrupted ∉
      (loopFrom ctx ⟨3, some p, D, some f⟩ p fn 1 ((3 : Int).toNat - 1)).1 :=
    interrupted_not_mem_loopFrom ctx ⟨3, some p, D, some f⟩ p fn hc _ 1
  obtain ⟨l1, _, l3⟩ := loopFrom_delayArgs ctx ⟨3, some p, D, some f⟩ p fn f rfl
    ((3 : Int).toNat - 1) 1
  obtain ⟨c1, _⟩ := loopFrom_all_retry ctx ⟨3, some p, D, some f⟩ p fn
    (fun k => hp (fn k)) hc
    ((3 : Int).toNat - 1) 1 (by decide)
  have hlen : (delayArgs
      (loopFrom ctx ⟨3, some p, D, some f⟩ p fn 1 ((3 : Int).toNat - 1)).1).length = 2 := by
    rw [← l3 hnm, c1]
    rfl
  rw [delayArgs_cons_invoked, l1, hlen]
  rfl

/-- Witness for C8: delay function `a ↦ 7 * a`, always-failing operation. -/
theorem Func_delay_called_twice_for_three_attempts_witness :
    delayArgs (Func ⟨fun _ => false, 99⟩
      ⟨3, some (fun _ => true), 0, some (fun a => 7 * a)⟩ (fun k => k)).1 = [1, 2] :=
  Func_delay_called_twice_for_three_attempts ⟨fun _ => false, 99⟩ (fun _ => true)
    0 (fun a => 7 * a) (fun k => k) (fun _ => rfl) (fun _ => rfl)

/-- Claim C9: when both a fixed delay and a delay function are set, every
inter-attempt wait of `Func` lasts the delay function's clamped result
`max 0 (f a)` for that wait's 1-based index `a`, every delay-function call
records that clamped non-negative result, and the fixed `Delay` field is
ignored: the whole run is unchanged under any other value of `Delay`. -/
theorem Func_delayFn_overrides_fixed_delay (ctx : Ctx E) (ma : Int)
    (ro : Option (E → Bool)) (d1 d2 : Int) (f : Int → Int) (fn : Nat → E) :
    Func ctx ⟨ma, ro, d1, some f⟩ fn = Func ctx ⟨ma, ro, d2, some f⟩ fn ∧
    (∀ dv, Event.waited dv ∈ (Func ctx ⟨ma, ro, d1, some f⟩ fn).1 →
      ∃ a : Nat, 1 ≤ a ∧ dv = max 0 (f (Int.ofNat a))) ∧
    (∀ a r, Event.delayCalled a r ∈ (Func ctx ⟨ma, ro, d1, some f⟩ fn).1 →
      r = max 0 (f a) ∧ 0 ≤ r) := by
  have main : ∀ ev ∈ (Func ctx ⟨ma, ro, d1, some f⟩ fn).1,
      (∀ dv, ev = Event.waited dv → ∃ a : Nat, 1 ≤ a ∧ dv = max 0 (f (Int.ofNat a))) ∧
      (∀ a r, ev = Event.delayCalled a r → r = max 0 (f a) ∧ 0 ≤ r) := by
    intro ev hev
    rcases ro with _ | p
    · simp only [Func, List.mem_singleton] at hev
      subst hev
      constructor
      · intro dv hdv; cases hdv
      · intro a r har; cases har
    · by_cases hma : ma < 1
      · simp only [Func, hma, if_true, List.mem_singleton] at hev
        subst hev
        constructor
        · intro dv hdv; cases hdv
        · intro a r har; cases har
      · by_cases hp0 : p (fn 0)
        · simp only [Func, hma, if_false, hp0, if_true, List.mem_cons] at hev
          rcases hev with hev | hev
          · subst hev
            constructor
            · intro dv hdv; cases hdv
            · intro a r har; cases har
          · exact loopFrom_mem_delayFn ctx ⟨ma, some p, d1, some f⟩ p fn f rfl
              (ma.toNat - 1) 1 le_rfl ev hev
        · simp only [Func, hma, if_false, hp0, Bool.false_eq_true,
            List.mem_singleton] at hev
          subst hev
          constructor
          · intro dv hdv; cases hdv
          · intro a r har; cases har
  refine ⟨?_, ?_, ?_⟩
  · rcases ro with _ | p
    · rfl
    · by_cases hma : ma < 1
      · simp [Func, hma]
      · simp only [Func, hma, if_false]
        by_cases hp0 : p (fn 0)
        · simp only [hp0, if_true,
            loopFrom_delay_irrelevant ctx ma (some p) d1 d2 f p fn (ma.toNat - 1) 1]
        · simp [hp0]
  · intro dv hdv
    exact (main _ hdv).1 dv rfl
  · intro a r har
    exact (main _ har).2 a r rfl

/-- Witness for C9: `Delay = 5` versus `Delay = -5` with delay function
`a ↦ a - 2` (negative at the first wait, clamped to 0). -/
theorem Func_delayFn_overrides_fixed_delay_witness :
    Func ⟨fun i => decide (i = 2), 99⟩
      ⟨3, some (fun _ => true), 5, some (fun a => a - 2)⟩ (fun k => k) =
    Func ⟨fun i => decide (i = 2), 99⟩
      ⟨3, some (fun _ => true), -5, some (fun a => a - 2)⟩ (fun k => k) ∧
    (∀ dv, Event.waited dv ∈ (Func ⟨fun i => decide (i = 2), 99⟩
      ⟨3, some (fun _ => true), 5, some (fun a => a - 2)⟩ (fun k => k)).1 →
      ∃ a : Nat, 1 ≤ a ∧ dv = max 0 ((fun a : Int => a - 2) (Int.ofNat a))) ∧
    (∀ a r, Event.delayCalled a r ∈ (Func ⟨fun i => decide (i = 2), 99⟩
      ⟨3, some (fun _ => true), 5, some (fun a => a - 2)⟩ (fun k => k)).1 →
      r = max 0 ((fun a : Int => a - 2) a) ∧ 0 ≤ r) :=
  Func_delayFn_overrides_fixed_delay ⟨fun i => decide (i = 2), 99⟩ 3
    (some (fun _ => true)) 5 (-5) (fun a => a - 2) (fun k => k)

/-- Claim C10: the generic `FuncVal` of `pkg.go` (a closure over `Func` that
captures the value) and the standalone `FuncVal` of `part_001` (inlined retry
loop) are behaviorally equivalent: for every context, `Config`, operation and
zero value, they produce the same event trace (invocations, delay calls,
waits, interrupts) and the same final (value, error) pair. -/
theorem FuncVal_generic_eq_standalone (ctx : Ctx E) (cfg : Config E)
    (fnv : Nat → T × E) (dflt : T) :
    FuncVal ctx cfg fnv dflt = FuncValStandalone ctx cfg fnv := by
  obtain ⟨ma, ro, d, df⟩ := cfg
  rcases ro with _ | p
  · simp [FuncVal, FuncValStandalone, Func, valAt, lastInvokedIdx]
  · by_cases hma : ma < 1
    · simp [FuncVal, FuncValStandalone, Func, hma, valAt, lastInvokedIdx]
    · by_cases hp0 : p ((fnv 0).2)
      · obtain ⟨h1, h2⟩ := loopFromVal_eq_loopFrom ctx ⟨ma, some p, d, df⟩ p fnv
          (ma.toNat - 1) 1 ((fnv 0).1)
        simp only [FuncVal, FuncValStandalone, Func, hma, if_false, hp0, if_true]
        rcases hr : (loopFrom ctx ⟨ma, some p, d, df⟩ p
            (fun k => (fnv k).2) 1 (ma.toNat - 1)).2 with _ | e'
        · obtain ⟨hnil, _⟩ := loopFrom_none ctx ⟨ma, some p, d, df⟩ p
            (fun k => (fnv k).2) (ma.toNat - 1) 1 hr
          rw [h1, h2, hr, hnil]
          simp only [Option.map_none', Option.getD_none]
          have hv : valAt fnv dflt [Event.invoked 0 ((fnv 0).2)] = (fnv 0).1 := by
            rw [show [Event.invoked 0 ((fnv 0).2)] =
              [] ++ Event.invoked 0 ((fnv 0).2) :: [] from rfl]
            rw [valAt_append_invoked fnv dflt [] [] 0 ((fnv 0).2) rfl]
            rfl
          rw [hv]
        · rw [h1, h2, hr]
          simp only [Option.map_some', Option.getD_some]
          have hv : valAt fnv dflt (Event.invoked 0 ((fnv 0).2) ::
              (loopFrom ctx ⟨ma, some p, d, df⟩ p (fun k => (fnv k).2) 1
                (ma.toNat - 1)).1) =
              valAt fnv ((fnv 0).1) (loopFrom ctx ⟨ma, some p, d, df⟩ p
                (fun k => (fnv k).2) 1 (ma.toNat - 1)).1 :=
            valAt_append_invoked fnv dflt [] _ 0 ((fnv 0).2) rfl
          rw [hv]
      · simp only [FuncVal, FuncValStandalone, Func, hma, if_false, hp0,
          Bool.false_eq_true]
        have hv : valAt fnv dflt [Event.invoked 0 ((fnv 0).2)] = (fnv 0).1 := by
          rw [show [Event.invoked 0 ((fnv 0).2)] =
            [] ++ Event.invoked 0 ((fnv 0).2) :: [] from rfl]
          rw [valAt_append_invoked fnv dflt [] [] 0 ((fnv 0).2) rfl]
          rfl
        rw [hv]

/-- Claim C7: `WithDelayFunc fn` returns a new `Config` equal to the receiver
in every field except `delayFn`, which is set to `fn`; the receiver value is
untouched, so later runs with the original `Config` are unaffected. -/
theorem WithDelayFunc_copies_all_other_fields (c : Config E) (f : Int → Int) :
    (c.WithDelayFunc f).MaxAttempts = c.MaxAttempts ∧
    (c.WithDelayFunc f).RetryOn = c.RetryOn ∧
    (c.WithDelayFunc f).Delay = c.Delay ∧
    (c.WithDelayFunc f).delayFn = some f :=
  ⟨rfl, rfl, rfl, rfl⟩

/-- Claim C2: with no retry predicate or `MaxAttempts < 1`, `Func`, `FuncVal`
and the standalone `FuncVal` invoke the operation exactly once and return that
invocation's outcome verbatim, for every cancellation signal, with a trace
showing no wait, check, or delay-function event. -/
theorem Func_fast_path_single_call (ctx : Ctx E) (cfg : Config E)
    (fn : Nat → E) (fnv : Nat → T × E) (dflt : T)
    (h : cfg.RetryOn = none ∨ cfg.MaxAttempts < 1) :
    Func ctx cfg fn = ([.invoked 0 (fn 0)], fn 0) ∧
    FuncVal ctx cfg fnv dflt = ([.invoked 0 (fnv 0).2], (fnv 0).1, (fnv 0).2) ∧
    FuncValStandalone ctx cfg fnv = ([.invoked 0 (fnv 0).2], fnv 0) := by
  rcases h with h | h <;>
    refine ⟨?_, ?_, ?_⟩ <;>
      simp [Func, FuncVal, FuncValStandalone, h, valAt, lastInvokedIdx]
  all_goals
    rcases hro : cfg.RetryOn with _ | p <;>
      simp [hro, h, valAt, lastInvokedIdx]

/-- Witness for C2 at a concrete instance (cancellation signal always active,
`MaxAttempts = 5` but no predicate set). -/
theorem Func_fast_path_single_call_witness :
    Func ⟨fun _ => true, 99⟩ ⟨5, none, 0, none⟩ (fun k => k + 7) = ([.invoked 0 7], 7) ∧
    FuncVal ⟨fun _ => true, 99⟩ ⟨5, none, 0, none⟩ (fun k => (k + 1, k + 7)) 0 =
      ([.invoked 0 7], 1, 7) ∧
    FuncValStandalone ⟨fun _ => true, 99⟩ ⟨5, none, 0, none⟩ (fun k => (k + 1, k + 7)) =
      ([.invoked 0 7], 1, 7) :=
  Func_fast_path_single_call ⟨fun _ => true, 99⟩ ⟨5, none, 0, none⟩
    (fun k => k + 7) (fun k => (k + 1, k + 7)) 0 (Or.inl rfl)

end Retry
